import Mathlib

/-!
Verification of the auto-linking engine of the Nativo repository
(`backend/app/services/document_service.py` and the `TextWordLink` model).

The Python code is shallowly embedded: ORM rows become Lean structures, the
SQLAlchemy session becomes an explicit `DB` value, and the Unicode data the
code obtains from Python's `unicodedata` / `str.casefold` standard library is
embedded as explicit character tables covering the character repertoire used
in this development (ASCII plus a few Latin-1 accented letters and combining
marks).  Every definition is translated from the source, statement for
statement.
-/

namespace Nativo

/-! ## Character-level Unicode tables

Fragment of the Unicode character data used by `unicodedata.normalize("NFD", ·)`,
`unicodedata.category`, `str.casefold` and the `re` module's notion of a word
character.  Characters outside the table behave as ASCII does: they are
NFD-invariant, not combining marks, and casefold by ASCII lowercasing. -/

/-- Canonical decomposition (NFD) of a single character: the precomposed
Latin letters used in this development decompose into a base letter followed
by a combining accent; all other characters in scope are NFD-invariant. -/
def nfdChar (c : Char) : List Char :=
  if c = 'é' then ['e', '́']
  else if c = 'É' then ['E', '́']
  else if c = 'á' then ['a', '́']
  else if c = 'Á' then ['A', '́']
  else if c = 'è' then ['e', '̀']
  else if c = 'È' then ['E', '̀']
  else [c]

/-- Whether a character has Unicode category `Mn` (nonspacing combining mark);
in our repertoire exactly the combining grave and acute accents. -/
def isCombiningMark (c : Char) : Bool :=
  c == '̀' || c == '́'

/-- `str.casefold` on one character.  On the repertoire in scope, casefolding
is character-wise: ASCII uppercase maps to lowercase and the accented capitals
map to their lowercase forms; everything else is fixed. -/
def caseFoldChar (c : Char) : Char :=
  if c = 'É' then 'é'
  else if c = 'Á' then 'á'
  else if c = 'È' then 'è'
  else c.toLower

/-- `str.casefold` of a string, as a list of characters. -/
def caseFoldL (cs : List Char) : List Char := cs.map caseFoldChar

/-- NFD decomposition of a string, as a list of characters. -/
def nfdL (cs : List Char) : List Char := cs.flatMap nfdChar

/-- Removal of all combining marks (category `Mn`) from a decomposed string. -/
def removeMarks (cs : List Char) : List Char :=
  cs.filter (fun c => !isCombiningMark c)

/-- Embedding of `_strip_diacritics` (document_service.py, lines 21–27):
NFD-normalize, drop every category-`Mn` character, then casefold. -/
def strip_diacritics (cs : List Char) : List Char :=
  caseFoldL (removeMarks (nfdL cs))

/-- A word character in the sense of Python's `re` module's `\w` under
`re.UNICODE`: alphanumeric characters and the underscore.  On our repertoire:
ASCII letters and digits, the underscore, and the accented Latin letters.
Combining marks are not alphanumeric and hence not word characters. -/
def isWordChar (c : Char) : Bool :=
  c.isAlpha || c.isDigit || c == '_' ||
    c == 'é' || c == 'É' || c == 'á' || c == 'Á' || c == 'è' || c == 'È'

/-- A character matched by the character class `[\w'-]` of `TOKEN_PATTERN`
(document_service.py, line 18). -/
def isTokenChar (c : Char) : Bool :=
  isWordChar c || c == '\'' || c == '-'

/-! ## Tokenizer

Embedding of `TOKEN_PATTERN = re.compile(r"\b[\w'-]+\b", re.UNICODE)` together
with `_iter_tokens` (lines 30–35).  `re.finditer` semantics: attempt a match at
each position left to right; a match at `i` requires a word boundary at `i`,
then greedily consumes the maximal run of `[\w'-]` characters and backtracks
until the end position is again a word boundary; scanning resumes at the match
end.  Offsets are 0-based character indices, start inclusive, end exclusive. -/

/-- Whether position `i` of `s` holds a word character (out of range: no). -/
def wordAt (s : List Char) (i : Nat) : Bool :=
  match s.get? i with
  | some c => isWordChar c
  | none => false

/-- The regex word boundary `\b` at position `i`: exactly one of the character
before `i` and the character at `i` is a word character. -/
def boundary (s : List Char) (i : Nat) : Bool :=
  (if i = 0 then false else wordAt s (i - 1)) != wordAt s i

/-- Length of the maximal run of `[\w'-]` characters starting at position `i`. -/
def runLen (s : List Char) (i : Nat) : Nat :=
  ((s.drop i).takeWhile isTokenChar).length

/-- Backtracking search for the match end: the largest `j ∈ [i+1, i+k]` such
that `\b` holds at `j`. -/
def findEnd (s : List Char) (i : Nat) : Nat → Option Nat
  | 0 => none
  | k + 1 => if boundary s (i + (k + 1)) then some (i + (k + 1)) else findEnd s i k

/-- Attempt to match `\b[\w'-]+\b` at position `i`; returns the end offset. -/
def matchAt (s : List Char) (i : Nat) : Option Nat :=
  if boundary s i then findEnd s i (runLen s i) else none

/-- The scan loop of `re.finditer`: try each position in order, emit each
match as `(matched characters, start, end)` and resume at its end.  The fuel
argument bounds the number of scan steps; `s.length + 1` steps always
suffice because every step advances the position by at least one. -/
def scanTokens (s : List Char) : Nat → Nat → List (List Char × Nat × Nat)
  | _, 0 => []
  | i, fuel + 1 =>
    if s.length ≤ i then []
    else
      match matchAt s i with
      | some j => ((s.drop i).take (j - i), i, j) :: scanTokens s j fuel
      | none => scanTokens s (i + 1) fuel

/-- Embedding of `_iter_tokens` (lines 30–35): all `TOKEN_PATTERN` matches of
the content, left to right, with their character spans. -/
def iter_tokens (s : List Char) : List (List Char × Nat × Nat) :=
  scanTokens s 0 (s.length + 1)

/-! ## Data model

The rows the engine reads and writes, from `app/models/word.py`,
`app/models/text.py` and `app/models/text_word_link.py`.  UUID keys are
embedded as `Nat`; timestamp columns, which the engine never touches, are
omitted.  `Text.content` is `nullable=False` in the schema, so it is a plain
string ( Python's `not text.content` is then exactly the emptiness test);
`Text.language_id` is nullable and becomes an `Option`. -/

/-- `TextWordLinkStatus` (text_word_link.py, lines 26–40). -/
inductive LinkStatus where
  | suggested
  | confirmed
  | rejected
deriving DecidableEq, Repr

/-- A dictionary entry: `Word` (word.py) restricted to the columns the engine
reads (`id`, `language_id`, `word`; both `word` and `language_id` are
non-nullable). -/
structure Word where
  id : Nat
  language_id : Nat
  word : List Char
deriving DecidableEq, Repr

/-- A text: `Text` (text.py) restricted to the columns the engine reads. -/
structure Text where
  id : Nat
  language_id : Option Nat
  content : List Char
deriving DecidableEq, Repr

/-- `TextWordLink` (text_word_link.py), restricted to the columns the engine
reads or writes.  `confidence` is a nullable float, embedded as `Option ℚ`. -/
structure TextWordLink where
  id : Nat
  text_id : Nat
  word_id : Nat
  start_char : Nat
  end_char : Nat
  status : LinkStatus
  confidence : Option ℚ
  notes : Option (List Char)
  created_by_id : Option Nat
  verified_by_id : Option Nat
deriving DecidableEq, Repr

/-- The span of a link, as the pair `(start_char, end_char)`. -/
def spanOf (l : TextWordLink) : Nat × Nat := (l.start_char, l.end_char)

/-- The database session visible to the engine: the `text_word_links` and
`words` tables, plus a counter supplying fresh primary keys for `db.add`. -/
structure DB where
  links : List TextWordLink
  words : List Word
  nextId : Nat
deriving DecidableEq, Repr

/-! ## The engine -/

/-- Embedding of `_build_word_index` (lines 38–47) composed with the
`word_index.get(normalized)` lookup (line 103): the `defaultdict` maps each
nonempty normalized key to the words with that normalization, in catalog
iteration order; a word whose normalization is empty is never inserted, and
looking up an absent key (in particular the empty key) yields nothing. -/
def word_index_lookup (words : List Word) (key : List Char) : List Word :=
  if key = [] then []
  else words.filter (fun w => decide (strip_diacritics w.word = key))

/-- The homograph selection of lines 107–111: the first candidate whose
surface form casefolds to the token's casefolded surface form, else the first
candidate (`matches[0]`). -/
def select_word (m0 : Word) (cands : List Word) (token : List Char) : Word :=
  (cands.find? (fun w => decide (caseFoldL w.word = caseFoldL token))).getD m0

/-- The token loop of `suggest_links_for_text` (lines 95–124): walk the tokens
left to right carrying the occupied-span set, the created links and the fresh-id
counter.  A token is skipped when its span is rejected or occupied, or when the
index lookup for its normalized form is empty; otherwise a new `suggested` link
is created and its span immediately marked occupied. -/
def processTokens (tid : Nat) (cid : Option Nat) (rej : List (Nat × Nat))
    (words : List Word) :
    List (List Char × Nat × Nat) → List (Nat × Nat) → Nat →
    List TextWordLink × List (Nat × Nat) × Nat
  | [], occ, nid => ([], occ, nid)
  | (tok, s, e) :: rest, occ, nid =>
    if (s, e) ∈ rej then processTokens tid cid rej words rest occ nid
    else if (s, e) ∈ occ then processTokens tid cid rej words rest occ nid
    else
      match word_index_lookup words (strip_diacritics tok) with
      | [] => processTokens tid cid rej words rest occ nid
      | m0 :: ms =>
        let sel := select_word m0 (m0 :: ms) tok
        let link : TextWordLink :=
          { id := nid, text_id := tid, word_id := sel.id,
            start_char := s, end_char := e,
            status := LinkStatus.suggested, confidence := some 1,
            notes := none, created_by_id := cid, verified_by_id := none }
        let r := processTokens tid cid rej words rest ((s, e) :: occ) (nid + 1)
        (link :: r.1, r.2)

/-- The links of the store belonging to one text (the `db.query(...).filter`
of line 73). -/
def textLinks (db : DB) (tid : Nat) : List TextWordLink :=
  db.links.filter (fun l => decide (l.text_id = tid))

/-- The store after the deletion pass of lines 75–79: every link of the text
whose status is `suggested` is deleted; everything else stays. -/
def purgeSuggested (db : DB) (tid : Nat) : List TextWordLink :=
  db.links.filter (fun l =>
    !(decide (l.text_id = tid) && decide (l.status = LinkStatus.suggested)))

/-- The links that remain stored after step 2 of the algorithm. -/
def keptLinks (db : DB) (tid : Nat) (repl : Bool) : List TextWordLink :=
  if repl then purgeSuggested db tid else db.links

/-- The in-memory `existing_links` list after lines 73–82: the text's links,
with the `suggested` ones removed when `replace_existing_suggestions` is set. -/
def workingLinks (db : DB) (tid : Nat) (repl : Bool) : List TextWordLink :=
  if repl then
    (textLinks db tid).filter (fun l => !decide (l.status = LinkStatus.suggested))
  else textLinks db tid

/-- The `rejected_spans` set of lines 85–89. -/
def rejectedSpansOf (ls : List TextWordLink) : List (Nat × Nat) :=
  (ls.filter (fun l => decide (l.status = LinkStatus.rejected))).map spanOf

/-- The catalog fetch of line 92: the words of the text's language. -/
def languageWords (db : DB) (text : Text) : List Word :=
  db.words.filter (fun w => decide (some w.language_id = text.language_id))

/-- Embedding of `suggest_links_for_text` (lines 50–126).  Returns the updated
session (deleted suggestions removed, created links added) together with the
list of newly created links. -/
def suggest_links_for_text (db : DB) (text : Text) (creator_id : Option Nat)
    (replace_existing_suggestions : Bool) : DB × List TextWordLink :=
  if text.language_id = none ∨ text.content = [] then (db, [])
  else
    let ex := workingLinks db text.id replace_existing_suggestions
    let r := processTokens text.id creator_id (rejectedSpansOf ex)
      (languageWords db text) (iter_tokens text.content) (ex.map spanOf) db.nextId
    ({ links := keptLinks db text.id replace_existing_suggestions ++ r.1,
       words := db.words, nextId := r.2.2 }, r.1)

/-! ## Tokenizer lemmas -/

theorem findEnd_le (s : List Char) (i : Nat) :
    ∀ k j, findEnd s i k = some j → i + 1 ≤ j ∧ j ≤ i + k := by
  intro k
  induction k with
  | zero => intro j h; simp [findEnd] at h
  | succ k ih =>
    intro j h
    simp only [findEnd] at h
    split at h
    · injection h with h; omega
    · have := ih j h; omega

theorem takeWhile_length_le (p : Char → Bool) :
    ∀ l : List Char, (l.takeWhile p).length ≤ l.length
  | [] => by simp
  | a :: l => by
    rw [List.takeWhile_cons]
    split
    · simpa using takeWhile_length_le p l
    · simp

theorem runLen_le (s : List Char) (i : Nat) : runLen s i ≤ s.length - i := by
  have h := takeWhile_length_le isTokenChar (s.drop i)
  simpa [runLen, List.length_drop] using h

theorem matchAt_bounds (s : List Char) (i j : Nat) (h : matchAt s i = some j) :
    i < j ∧ j - i ≤ runLen s i ∧ j ≤ s.length := by
  simp only [matchAt] at h
  split at h
  · rcases Nat.eq_zero_or_pos (runLen s i) with hz | hp
    · rw [hz] at h; simp [findEnd] at h
    · have h2 := findEnd_le s i (runLen s i) j h
      have h3 := runLen_le s i
      omega
  · simp at h

theorem take_run_tokenChars (s : List Char) (i n : Nat) (hn : n ≤ runLen s i) :
    ∀ c ∈ (s.drop i).take n, isTokenChar c = true := by
  intro c hc
  have hpre : (s.drop i).take n = ((s.drop i).takeWhile isTokenChar).take n := by
    conv_lhs => rw [← List.takeWhile_append_dropWhile (p := isTokenChar) (l := s.drop i)]
    rw [List.take_append_eq_append_take]
    have h0 : n - ((s.drop i).takeWhile isTokenChar).length = 0 := by
      simp only [runLen] at hn; omega
    rw [h0]
    simp
  rw [hpre] at hc
  exact List.mem_takeWhile_imp (List.take_subset _ _ hc)

theorem scanTokens_facts (s : List Char) :
    ∀ fuel i t, t ∈ scanTokens s i fuel →
      t.1 = (s.drop t.2.1).take (t.2.2 - t.2.1) ∧ t.2.1 < t.2.2 ∧
      t.2.2 ≤ s.length ∧ ∀ c ∈ t.1, isTokenChar c = true := by
  intro fuel
  induction fuel with
  | zero => intro i t h; simp [scanTokens] at h
  | succ fuel ih =>
    intro i t h
    simp only [scanTokens] at h
    split at h
    · simp at h
    · cases hm : matchAt s i with
      | none => rw [hm] at h; exact ih (i + 1) t h
      | some j =>
        rw [hm] at h
        rcases List.mem_cons.mp h with rfl | h'
        · obtain ⟨h1, h2, h3⟩ := matchAt_bounds s i j hm
          exact ⟨rfl, h1, h3, take_run_tokenChars s i (j - i) h2⟩
        · exact ih j t h'

/-- **C4** (amended).  Every token emitted by the tokenizer is a run of
characters of the class `[\w'-]` — word characters in the sense of Python's
`\w` (letters, digits, and the underscore), apostrophes, and hyphens — and its
span is a pair of 0-based character offsets, start inclusive and end
exclusive, into the exact input: the token equals the characters of the input
between its offsets, and `start < end ≤ length`.  In particular whitespace and
punctuation never occur inside a token and are never covered by a token span.
(The claim as frozen omits the underscore, which `\w` matches; see the
counterexample.) -/
theorem C4_token_alphabet (s : List Char) (t : List Char × Nat × Nat)
    (h : t ∈ iter_tokens s) :
    (∀ c ∈ t.1, isTokenChar c = true) ∧
    t.1 = (s.drop t.2.1).take (t.2.2 - t.2.1) ∧
    t.2.1 < t.2.2 ∧ t.2.2 ≤ s.length := by
  obtain ⟨h1, h2, h3, h4⟩ := scanTokens_facts s (s.length + 1) 0 t h
  exact ⟨h4, h1, h2, h3⟩

/-- Witness for `C4_token_alphabet` at the concrete input `"ab"`. -/
theorem C4_token_alphabet_witness :
    (∀ c ∈ ['a', 'b'], isTokenChar c = true) ∧
    ['a', 'b'] = (List.drop 0 ['a', 'b']).take (2 - 0) ∧
    0 < 2 ∧ 2 ≤ (['a', 'b'] : List Char).length :=
  C4_token_alphabet ['a', 'b'] (['a', 'b'], 0, 2) (by decide)

/-- **C4** counterexample.  The claim as stated is false: on the input `"_"`
the tokenizer emits the token `"_"`, whose single character is neither a
letter, nor a digit, nor an apostrophe, nor a hyphen (it is the underscore,
which Python's `\w` also matches). -/
theorem C4_counterexample :
    (['_'], 0, 1) ∈ iter_tokens ['_'] ∧
    ¬(('_' : Char).isAlpha = true ∨ ('_' : Char).isDigit = true ∨
      ('_' : Char) = '\'' ∨ ('_' : Char) = '-') := by
  constructor
  · decide
  · decide

/-- **C9**.  `strip_diacritics` is the composite of canonical decomposition
(NFD), removal of every combining mark, and casefolding; consequently the
normalizations of `"café"`, `"CAFÉ"` and `"cafe"` all coincide. -/
theorem C9_normalization :
    (∀ cs, strip_diacritics cs = caseFoldL (removeMarks (nfdL cs))) ∧
    strip_diacritics "café".data = strip_diacritics "CAFÉ".data ∧
    strip_diacritics "CAFÉ".data = strip_diacritics "cafe".data :=
  ⟨fun _ => rfl, by decide, by decide⟩

/-! ## Token-loop lemmas -/

theorem processTokens_mem (tid : Nat) (cid : Option Nat) (rej : List (Nat × Nat))
    (words : List Word) :
    ∀ toks occ nid l, l ∈ (processTokens tid cid rej words toks occ nid).1 →
      l.status = LinkStatus.suggested ∧ l.confidence = some 1 ∧
      l.created_by_id = cid ∧ l.text_id = tid ∧ l.notes = none ∧
      l.verified_by_id = none ∧ spanOf l ∉ rej ∧
      ∃ tok, (tok, l.start_char, l.end_char) ∈ toks ∧
        ∃ m0 ms, word_index_lookup words (strip_diacritics tok) = m0 :: ms ∧
          l.word_id = (select_word m0 (m0 :: ms) tok).id := by
  intro toks
  induction toks with
  | nil => intro occ nid l h; simp [processTokens] at h
  | cons hd rest ih =>
    obtain ⟨tok, s, e⟩ := hd
    intro occ nid l h
    simp only [processTokens] at h
    by_cases hr : (s, e) ∈ rej
    · rw [if_pos hr] at h
      obtain ⟨h1, h2, h3, h4, h5, h6, h7, tk, htk, m0, ms, hm, hw⟩ := ih occ nid l h
      exact ⟨h1, h2, h3, h4, h5, h6, h7, tk, List.mem_cons_of_mem _ htk, m0, ms, hm, hw⟩
    · rw [if_neg hr] at h
      by_cases ho : (s, e) ∈ occ
      · rw [if_pos ho] at h
        obtain ⟨h1, h2, h3, h4, h5, h6, h7, tk, htk, m0, ms, hm, hw⟩ := ih occ nid l h
        exact ⟨h1, h2, h3, h4, h5, h6, h7, tk, List.mem_cons_of_mem _ htk, m0, ms, hm, hw⟩
      · rw [if_neg ho] at h
        cases hm : word_index_lookup words (strip_diacritics tok) with
        | nil =>
          rw [hm] at h
          obtain ⟨h1, h2, h3, h4, h5, h6, h7, tk, htk, m0, ms, hm', hw⟩ := ih occ nid l h
          exact ⟨h1, h2, h3, h4, h5, h6, h7, tk, List.mem_cons_of_mem _ htk, m0, ms, hm', hw⟩
        | cons m0 ms =>
          rw [hm] at h
          simp only at h
          rcases List.mem_cons.mp h with rfl | h'
          · exact ⟨rfl, rfl, rfl, rfl, rfl, rfl, hr, tok, List.mem_cons_self _ _,
              m0, ms, hm, rfl⟩
          · obtain ⟨h1, h2, h3, h4, h5, h6, h7, tk, htk, m0', ms', hm', hw⟩ :=
              ih ((s, e) :: occ) (nid + 1) l h'
            exact ⟨h1, h2, h3, h4, h5, h6, h7, tk, List.mem_cons_of_mem _ htk,
              m0', ms', hm', hw⟩

theorem processTokens_fresh (tid : Nat) (cid : Option Nat) (rej : List (Nat × Nat))
    (words : List Word) :
    ∀ toks occ nid,
      (∀ l ∈ (processTokens tid cid rej words toks occ nid).1, spanOf l ∉ occ) ∧
      (processTokens tid cid rej words toks occ nid).1.Pairwise
        (fun a b => spanOf a ≠ spanOf b) := by
  intro toks
  induction toks with
  | nil => intro occ nid; simp [processTokens]
  | cons hd rest ih =>
    obtain ⟨tok, s, e⟩ := hd
    intro occ nid
    simp only [processTokens]
    by_cases hr : (s, e) ∈ rej
    · rw [if_pos hr]; exact ih occ nid
    · rw [if_neg hr]
      by_cases ho : (s, e) ∈ occ
      · rw [if_pos ho]; exact ih occ nid
      · rw [if_neg ho]
        cases hm : word_index_lookup words (strip_diacritics tok) with
        | nil => exact ih occ nid
        | cons m0 ms =>
          simp only
          constructor
          · intro l hl
            rcases List.mem_cons.mp hl with rfl | hl'
            · simpa [spanOf] using ho
            · have h1 := (ih ((s, e) :: occ) (nid + 1)).1 l hl'
              intro hocc
              exact h1 (List.mem_cons_of_mem _ hocc)
          · rw [List.pairwise_cons]
            refine ⟨?_, (ih ((s, e) :: occ) (nid + 1)).2⟩
            intro b hb heq
            have h1 := (ih ((s, e) :: occ) (nid + 1)).1 b hb
            apply h1
            rw [← heq]
            exact List.mem_cons_self _ _

theorem processTokens_occ (tid : Nat) (cid : Option Nat) (rej : List (Nat × Nat))
    (words : List Word) :
    ∀ toks occ nid,
      (processTokens tid cid rej words toks occ nid).2.1 =
        ((processTokens tid cid rej words toks occ nid).1.map spanOf).reverse ++ occ := by
  intro toks
  induction toks with
  | nil => intro occ nid; simp [processTokens]
  | cons hd rest ih =>
    obtain ⟨tok, s, e⟩ := hd
    intro occ nid
    simp only [processTokens]
    by_cases hr : (s, e) ∈ rej
    · rw [if_pos hr]; exact ih occ nid
    · rw [if_neg hr]
      by_cases ho : (s, e) ∈ occ
      · rw [if_pos ho]; exact ih occ nid
      · rw [if_neg ho]
        cases hm : word_index_lookup words (strip_diacritics tok) with
        | nil => exact ih occ nid
        | cons m0 ms =>
          simp only
          rw [ih ((s, e) :: occ) (nid + 1)]
          simp [spanOf, List.append_assoc]

theorem processTokens_stable (tid : Nat) (cid : Option Nat) (rej : List (Nat × Nat))
    (words : List Word) :
    ∀ toks occ occ2 nid nid2,
      (∀ sp, sp ∈ occ → sp ∈ occ2) →
      (∀ l ∈ (processTokens tid cid rej words toks occ nid).1, spanOf l ∈ occ2) →
      (processTokens tid cid rej words toks occ2 nid2).1 = [] := by
  intro toks
  induction toks with
  | nil => intro occ occ2 nid nid2 _ _; simp [processTokens]
  | cons hd rest ih =>
    obtain ⟨tok, s, e⟩ := hd
    intro occ occ2 nid nid2 hsub hcr
    simp only [processTokens] at hcr ⊢
    by_cases hr : (s, e) ∈ rej
    · rw [if_pos hr] at hcr ⊢
      exact ih occ occ2 nid nid2 hsub hcr
    · rw [if_neg hr] at hcr ⊢
      by_cases ho : (s, e) ∈ occ
      · rw [if_pos ho] at hcr
        rw [if_pos (hsub _ ho)]
        exact ih occ occ2 nid nid2 hsub hcr
      · rw [if_neg ho] at hcr
        cases hm : word_index_lookup words (strip_diacritics tok) with
        | nil =>
          rw [hm] at hcr
          by_cases ho2 : (s, e) ∈ occ2
          · rw [if_pos ho2]
            exact ih occ occ2 nid nid2 hsub hcr
          · rw [if_neg ho2]
            exact ih occ occ2 nid nid2 hsub hcr
        | cons m0 ms =>
          rw [hm] at hcr
          simp only at hcr
          have hlink : (s, e) ∈ occ2 := by
            have h1 := hcr _ (List.mem_cons_self _ _)
            simpa [spanOf] using h1
          rw [if_pos hlink]
          refine ih ((s, e) :: occ) occ2 (nid + 1) nid2 ?_ ?_
          · intro sp hsp
            rcases List.mem_cons.mp hsp with rfl | h'
            · exact hlink
            · exact hsub _ h'
          · intro l hl
            exact hcr _ (List.mem_cons_of_mem _ hl)

/-! ## Engine lemmas -/

/-- The token-loop run performed by `suggest_links_for_text` once its
preconditions hold. -/
def suggestRun (db : DB) (t : Text) (cid : Option Nat) (repl : Bool) :
    List TextWordLink × List (Nat × Nat) × Nat :=
  processTokens t.id cid (rejectedSpansOf (workingLinks db t.id repl)) (languageWords db t)
    (iter_tokens t.content) ((workingLinks db t.id repl).map spanOf) db.nextId

theorem suggest_eq (db : DB) (t : Text) (cid : Option Nat) (repl : Bool)
    (h : ¬(t.language_id = none ∨ t.content = [])) :
    suggest_links_for_text db t cid repl =
      ({ links := keptLinks db t.id repl ++ (suggestRun db t cid repl).1,
         words := db.words, nextId := (suggestRun db t cid repl).2.2 },
       (suggestRun db t cid repl).1) := by
  simp only [suggest_links_for_text, if_neg h, suggestRun]

theorem select_word_mem (m0 : Word) (cands : List Word) (tok : List Char)
    (h : m0 ∈ cands) : select_word m0 cands tok ∈ cands := by
  unfold select_word
  cases hf : cands.find? (fun w => decide (caseFoldL w.word = caseFoldL tok)) with
  | none => simpa using h
  | some w => simpa using List.mem_of_find?_eq_some hf

theorem word_index_lookup_mem {words : List Word} {key : List Char} {w : Word}
    (h : w ∈ word_index_lookup words key) :
    w ∈ words ∧ strip_diacritics w.word = key ∧ key ≠ [] := by
  unfold word_index_lookup at h
  split at h
  · simp at h
  · next hk =>
    have h2 := List.mem_filter.mp h
    exact ⟨h2.1, by simpa using h2.2, hk⟩

theorem languageWords_sub {db : DB} {t : Text} {w : Word}
    (h : w ∈ languageWords db t) : w ∈ db.words :=
  (List.mem_filter.mp h).1

/-- A stored link of the text that is not `suggested` belongs to the
in-memory working list, for either value of `replace_existing_suggestions`. -/
theorem mem_workingLinks_of_not_suggested {db : DB} {tid : Nat} {l : TextWordLink}
    (repl : Bool) (h : l ∈ db.links) (htid : l.text_id = tid)
    (hst : l.status ≠ LinkStatus.suggested) :
    l ∈ workingLinks db tid repl := by
  unfold workingLinks
  have hmem : l ∈ textLinks db tid := by
    unfold textLinks
    exact List.mem_filter.mpr ⟨h, by simpa using htid⟩
  cases repl with
  | false => simpa using hmem
  | true =>
    simp only [if_pos rfl]
    exact List.mem_filter.mpr ⟨hmem, by simpa using hst⟩

/-- `find?` returns the element at the first index satisfying the predicate. -/
theorem find?_eq_of_first {α : Type} (p : α → Bool) :
    ∀ (l : List α) (i : Nat) (h : i < l.length), p (l.get ⟨i, h⟩) = true →
      (∀ j (hj : j < l.length), j < i → p (l.get ⟨j, hj⟩) = false) →
      l.find? p = some (l.get ⟨i, h⟩)
  | [], i, h => by simp at h
  | a :: tl, 0, h => fun hp _ => List.find?_cons_of_pos _ hp
  | a :: tl, i + 1, h => fun hp hprev => by
    have hpa : p a = false := hprev 0 (by omega) (by omega)
    rw [List.find?_cons_of_neg _ (by simp [hpa])]
    exact find?_eq_of_first p tl i (by simpa using h) hp
      (fun j hj hji => hprev (j + 1) (by omega) (by omega))

/-! ## Claims about the engine -/

/-- **C5**.  When the text has no language or empty content, the operation is
a no-op: it returns the empty list and leaves the session untouched — in
particular no stored link (of any status) is deleted, even when
`replace_existing_suggestions` is set. -/
theorem C5_precondition_noop (db : DB) (t : Text) (cid : Option Nat) (repl : Bool)
    (h : t.language_id = none ∨ t.content = []) :
    suggest_links_for_text db t cid repl = (db, []) := by
  simp only [suggest_links_for_text, if_pos h]

/-- Witness for `C5_precondition_noop`: a text without a language, a store
holding one suggested link, and `replace_existing_suggestions = true`. -/
theorem C5_precondition_noop_witness :
    suggest_links_for_text
        ⟨[⟨5, 3, 1, 0, 5, LinkStatus.suggested, some 1, none, none, none⟩], [], 6⟩
        ⟨3, none, "Hello world".data⟩ none true =
      (⟨[⟨5, 3, 1, 0, 5, LinkStatus.suggested, some 1, none, none, none⟩], [], 6⟩, []) :=
  C5_precondition_noop _ _ _ _ (Or.inl rfl)

/-- **C2**.  Rejection permanence: while a `rejected` link at span `(s, e)` is
stored for the text, no call of `suggest_links_for_text` — for either value of
`replace_existing_suggestions` and under any catalog contents — creates a link
at that exact span, and the rejected link itself stays stored (so by induction
the span remains excluded until the rejected row is deleted externally). -/
theorem C2_rejection_permanence (db : DB) (t : Text) (cid : Option Nat)
    (repl : Bool) (s e : Nat) (r : TextWordLink)
    (hr : r ∈ db.links) (htid : r.text_id = t.id)
    (hst : r.status = LinkStatus.rejected) (hspan : spanOf r = (s, e)) :
    (∀ l ∈ (suggest_links_for_text db t cid repl).2, spanOf l ≠ (s, e)) ∧
    r ∈ (suggest_links_for_text db t cid repl).1.links := by
  by_cases hpre : t.language_id = none ∨ t.content = []
  · simp only [suggest_links_for_text, if_pos hpre]
    exact ⟨by simp, hr⟩
  · rw [suggest_eq db t cid repl hpre]
    have hW : r ∈ workingLinks db t.id repl :=
      mem_workingLinks_of_not_suggested repl hr htid (by rw [hst]; simp)
    constructor
    · intro l hl heq
      have hfacts := processTokens_mem _ _ _ _ _ _ _ _ hl
      apply hfacts.2.2.2.2.2.2.1
      rw [heq, ← hspan]
      unfold rejectedSpansOf
      exact List.mem_map_of_mem _ (List.mem_filter.mpr ⟨hW, by simpa using hst⟩)
    · apply List.mem_append_left
      unfold keptLinks purgeSuggested
      cases repl with
      | false => simpa using hr
      | true =>
        simp only [if_pos rfl]
        refine List.mem_filter.mpr ⟨hr, ?_⟩
        rw [hst]; simp

/-- Witness for `C2_rejection_permanence`: the rejected link at span `(0, 5)`
of `"Hello world"` survives a `replace_existing_suggestions = true` rerun and
no created link claims its span. -/
theorem C2_rejection_permanence_witness :
    (∀ l ∈ (suggest_links_for_text
        ⟨[⟨5, 3, 1, 0, 5, LinkStatus.rejected, none, none, none, none⟩],
         [⟨1, 9, "Hello".data⟩], 6⟩
        ⟨3, some 9, "Hello world".data⟩ none true).2, spanOf l ≠ (0, 5)) ∧
    (⟨5, 3, 1, 0, 5, LinkStatus.rejected, none, none, none, none⟩ : TextWordLink) ∈
      (suggest_links_for_text
        ⟨[⟨5, 3, 1, 0, 5, LinkStatus.rejected, none, none, none, none⟩],
         [⟨1, 9, "Hello".data⟩], 6⟩
        ⟨3, some 9, "Hello world".data⟩ none true).1.links :=
  C2_rejection_permanence _ _ none true 0 5 _ (by decide) (by decide) (by decide) (by decide)

/-- **C3**.  Postconditions of every produced link: status `suggested`,
confidence `1`, creator as supplied, the text's id, a well-formed span
(`start_char < end_char ≤ length`; `0 ≤ start_char` holds by the span being a
natural number), and the substring of the content under the span normalizes —
diacritics stripped and casefolded — to the normalization of the selected
catalog entry's surface form. -/
theorem C3_link_postconditions (db : DB) (t : Text) (cid : Option Nat)
    (repl : Bool) (l : TextWordLink)
    (h : l ∈ (suggest_links_for_text db t cid repl).2) :
    l.status = LinkStatus.suggested ∧ l.confidence = some 1 ∧
    l.created_by_id = cid ∧ l.text_id = t.id ∧
    l.start_char < l.end_char ∧ l.end_char ≤ t.content.length ∧
    ∃ w ∈ db.words, w.id = l.word_id ∧
      strip_diacritics ((t.content.drop l.start_char).take (l.end_char - l.start_char)) =
        strip_diacritics w.word := by
  by_cases hpre : t.language_id = none ∨ t.content = []
  · simp only [suggest_links_for_text, if_pos hpre] at h
    simp at h
  · rw [suggest_eq db t cid repl hpre] at h
    obtain ⟨h1, h2, h3, h4, _, _, _, tok, htok, m0, ms, hm, hw⟩ :=
      processTokens_mem _ _ _ _ _ _ _ _ h
    obtain ⟨htk1, htk2, htk3, _⟩ :=
      scanTokens_facts t.content (t.content.length + 1) 0 _ htok
    refine ⟨h1, h2, h3, h4, htk2, htk3, ?_⟩
    have hsel : select_word m0 (m0 :: ms) tok ∈ word_index_lookup (languageWords db t)
        (strip_diacritics tok) := by
      rw [hm]
      exact select_word_mem m0 (m0 :: ms) tok (List.mem_cons_self _ _)
    obtain ⟨hmemw, hkey, _⟩ := word_index_lookup_mem hsel
    refine ⟨select_word m0 (m0 :: ms) tok, languageWords_sub hmemw, hw.symm, ?_⟩
    rw [← htk1, hkey]

/-- Witness for `C3_link_postconditions`: the scenario of §8.6 of the spec —
text `"Hello world"`, catalog `["Hello"]` — produces the single link at span
`(0, 5)` with all the stated fields. -/
theorem C3_link_postconditions_witness :
    (⟨0, 3, 1, 0, 5, LinkStatus.suggested, some 1, none, none, none⟩ : TextWordLink).status
        = LinkStatus.suggested ∧
    (⟨0, 3, 1, 0, 5, LinkStatus.suggested, some 1, none, none, none⟩ : TextWordLink).confidence
        = some 1 ∧
    (⟨0, 3, 1, 0, 5, LinkStatus.suggested, some 1, none, none, none⟩ : TextWordLink).created_by_id
        = none ∧
    (⟨0, 3, 1, 0, 5, LinkStatus.suggested, some 1, none, none, none⟩ : TextWordLink).text_id
        = (⟨3, some 9, "Hello world".data⟩ : Text).id ∧
    (⟨0, 3, 1, 0, 5, LinkStatus.suggested, some 1, none, none, none⟩ : TextWordLink).start_char
        < (⟨0, 3, 1, 0, 5, LinkStatus.suggested, some 1, none, none, none⟩ : TextWordLink).end_char ∧
    (⟨0, 3, 1, 0, 5, LinkStatus.suggested, some 1, none, none, none⟩ : TextWordLink).end_char
        ≤ (⟨3, some 9, "Hello world".data⟩ : Text).content.length ∧
    ∃ w ∈ (⟨[], [⟨1, 9, "Hello".data⟩], 0⟩ : DB).words,
      w.id = (⟨0, 3, 1, 0, 5, LinkStatus.suggested, some 1, none, none, none⟩ : TextWordLink).word_id ∧
      strip_diacritics (((⟨3, some 9, "Hello world".data⟩ : Text).content.drop 0).take (5 - 0)) =
        strip_diacritics w.word :=
  C3_link_postconditions ⟨[], [⟨1, 9, "Hello".data⟩], 0⟩ ⟨3, some 9, "Hello world".data⟩
    none false ⟨0, 3, 1, 0, 5, LinkStatus.suggested, some 1, none, none, none⟩ (by decide)

/-- **C10**.  A catalog entry whose surface form normalizes to the empty
string is excluded from the lookup index, and consequently every link the
engine creates refers to a catalog entry with nonempty normalization. -/
theorem C10_empty_normalization :
    (∀ (words : List Word) (key : List Char) (w : Word),
       strip_diacritics w.word = [] → w ∉ word_index_lookup words key) ∧
    (∀ (db : DB) (t : Text) (cid : Option Nat) (repl : Bool) (l : TextWordLink),
       l ∈ (suggest_links_for_text db t cid repl).2 →
       ∃ w ∈ db.words, w.id = l.word_id ∧ strip_diacritics w.word ≠ []) := by
  constructor
  · intro words key w hempty hmem
    obtain ⟨_, hkey, hk⟩ := word_index_lookup_mem hmem
    rw [hempty] at hkey
    exact hk hkey.symm
  · intro db t cid repl l h
    by_cases hpre : t.language_id = none ∨ t.content = []
    · simp only [suggest_links_for_text, if_pos hpre] at h
      simp at h
    · rw [suggest_eq db t cid repl hpre] at h
      obtain ⟨_, _, _, _, _, _, _, tok, _, m0, ms, hm, hw⟩ :=
        processTokens_mem _ _ _ _ _ _ _ _ h
      have hsel : select_word m0 (m0 :: ms) tok ∈ word_index_lookup (languageWords db t)
          (strip_diacritics tok) := by
        rw [hm]
        exact select_word_mem m0 (m0 :: ms) tok (List.mem_cons_self _ _)
      obtain ⟨hmemw, hkey, hk⟩ := word_index_lookup_mem hsel
      exact ⟨select_word m0 (m0 :: ms) tok, languageWords_sub hmemw, hw.symm,
        by rw [hkey]; exact hk⟩

/-- Witness for `C10_empty_normalization`: an entry consisting of a lone
combining acute accent normalizes to the empty string and is absent from the
index; and in the `"Hello world"` scenario the created link's entry has
nonempty normalization. -/
theorem C10_empty_normalization_witness :
    (⟨7, 9, ['́']⟩ : Word) ∉ word_index_lookup [⟨7, 9, ['́']⟩] "cafe".data ∧
    ∃ w ∈ (⟨[], [⟨1, 9, "Hello".data⟩], 0⟩ : DB).words,
      w.id = (⟨0, 3, 1, 0, 5, LinkStatus.suggested, some 1, none, none, none⟩ : TextWordLink).word_id ∧
      strip_diacritics w.word ≠ [] :=
  ⟨C10_empty_normalization.1 [⟨7, 9, ['́']⟩] "cafe".data ⟨7, 9, ['́']⟩ (by decide),
   C10_empty_normalization.2 ⟨[], [⟨1, 9, "Hello".data⟩], 0⟩ ⟨3, some 9, "Hello world".data⟩
     none false ⟨0, 3, 1, 0, 5, LinkStatus.suggested, some 1, none, none, none⟩ (by decide)⟩

/-- **C6**.  Frame on existing links: a stored link is absent from the
resulting store only when `replace_existing_suggestions = true` and the link
was a `suggested` link of this very text; every stored link that is
`confirmed`/`rejected` — or any stored link at all when the flag is false —
survives as the identical record (no field of it is modified, since the very
same record remains in the store). -/
theorem C6_frame (db : DB) (t : Text) (cid : Option Nat) (repl : Bool) :
    (∀ l ∈ db.links, (repl = false ∨ l.status ≠ LinkStatus.suggested) →
       l ∈ (suggest_links_for_text db t cid repl).1.links) ∧
    (∀ l ∈ db.links, l ∉ (suggest_links_for_text db t cid repl).1.links →
       repl = true ∧ l.status = LinkStatus.suggested ∧ l.text_id = t.id) := by
  by_cases hpre : t.language_id = none ∨ t.content = []
  · simp only [suggest_links_for_text, if_pos hpre]
    exact ⟨fun l hl _ => hl, fun l hl hnl => absurd hl hnl⟩
  · rw [suggest_eq db t cid repl hpre]
    constructor
    · intro l hl hcase
      apply List.mem_append_left
      unfold keptLinks
      cases repl with
      | false => simpa using hl
      | true =>
        rcases hcase with hfalse | hst
        · simp at hfalse
        · simp only [if_pos rfl]
          unfold purgeSuggested
          refine List.mem_filter.mpr ⟨hl, ?_⟩
          simp [hst]
    · intro l hl hnl
      have hnk : l ∉ keptLinks db t.id repl := fun hk => hnl (List.mem_append_left _ hk)
      cases repl with
      | false => exact absurd (by simpa [keptLinks] using hl) hnk
      | true =>
        have hb : l.text_id = t.id ∧ l.status = LinkStatus.suggested := by
          by_contra hcon
          apply hnk
          unfold keptLinks purgeSuggested
          simp only [if_pos rfl]
          refine List.mem_filter.mpr ⟨hl, ?_⟩
          simp only [Bool.not_eq_true', Bool.and_eq_false_iff, decide_eq_false_iff_not]
          tauto
        exact ⟨rfl, hb.2, hb.1⟩

/-- Witness for `C6_frame`: a `confirmed` link of the text survives a
`replace_existing_suggestions = true` run unchanged. -/
theorem C6_frame_witness :
    (⟨8, 3, 1, 6, 11, LinkStatus.confirmed, none, none, none, none⟩ : TextWordLink) ∈
      (suggest_links_for_text
        ⟨[⟨8, 3, 1, 6, 11, LinkStatus.confirmed, none, none, none, none⟩],
         [⟨1, 9, "Hello".data⟩], 9⟩
        ⟨3, some 9, "Hello world".data⟩ none true).1.links :=
  (C6_frame ⟨[⟨8, 3, 1, 6, 11, LinkStatus.confirmed, none, none, none, none⟩],
      [⟨1, 9, "Hello".data⟩], 9⟩
    ⟨3, some 9, "Hello world".data⟩ none true).1 _ (by decide) (Or.inr (by decide))

/-- **C7**.  Homograph tie-break: every created link stems from a token of the
content; among the candidate entries for the token's normalized key (listed in
catalog iteration order), the engine selects the one at the first position
whose surface form casefolds to the token's casefolded surface form, and when
no candidate casefold-matches it selects the first candidate. -/
theorem C7_homograph_tiebreak (db : DB) (t : Text) (cid : Option Nat)
    (repl : Bool) (l : TextWordLink)
    (h : l ∈ (suggest_links_for_text db t cid repl).2) :
    ∃ tok s e, (tok, s, e) ∈ iter_tokens t.content ∧ l.start_char = s ∧ l.end_char = e ∧
      ∀ ms, ms = word_index_lookup (languageWords db t) (strip_diacritics tok) →
        ((∀ w ∈ ms, caseFoldL w.word ≠ caseFoldL tok) →
           ∃ w0 rest, ms = w0 :: rest ∧ l.word_id = w0.id) ∧
        (∀ i (hi : i < ms.length), caseFoldL (ms.get ⟨i, hi⟩).word = caseFoldL tok →
           (∀ j (hj : j < ms.length), j < i → caseFoldL (ms.get ⟨j, hj⟩).word ≠ caseFoldL tok) →
           l.word_id = (ms.get ⟨i, hi⟩).id) := by
  by_cases hpre : t.language_id = none ∨ t.content = []
  · simp only [suggest_links_for_text, if_pos hpre] at h
    simp at h
  · rw [suggest_eq db t cid repl hpre] at h
    obtain ⟨_, _, _, _, _, _, _, tok, htok, m0, ms0, hm, hw⟩ :=
      processTokens_mem _ _ _ _ _ _ _ _ h
    refine ⟨tok, l.start_char, l.end_char, htok, rfl, rfl, ?_⟩
    intro ms hms
    rw [hm] at hms
    subst hms
    constructor
    · intro hnone
      refine ⟨m0, ms0, rfl, ?_⟩
      rw [hw]
      unfold select_word
      rw [List.find?_eq_none.mpr (fun w hwmem => by simpa using hnone w hwmem)]
      rfl
    · intro i hi hpi hprev
      rw [hw]
      unfold select_word
      rw [find?_eq_of_first _ _ i hi (by simpa using hpi)
        (fun j hj hji => by simpa using hprev j hj hji)]
      rfl

/-- Witness for `C7_homograph_tiebreak`: the homographs `"Cafe"` and `"café"`
share the key `"cafe"`; on the text `"café"` the engine selects the second
candidate, the first one that casefold-matches the token. -/
theorem C7_homograph_tiebreak_witness :
    ∃ tok s e,
      (tok, s, e) ∈ iter_tokens (⟨4, some 9, "café".data⟩ : Text).content ∧
      (⟨0, 4, 2, 0, 4, LinkStatus.suggested, some 1, none, none, none⟩ : TextWordLink).start_char = s ∧
      (⟨0, 4, 2, 0, 4, LinkStatus.suggested, some 1, none, none, none⟩ : TextWordLink).end_char = e ∧
      ∀ ms, ms = word_index_lookup
          (languageWords ⟨[], [⟨1, 9, "Cafe".data⟩, ⟨2, 9, "café".data⟩], 0⟩
            ⟨4, some 9, "café".data⟩)
          (strip_diacritics tok) →
        ((∀ w ∈ ms, caseFoldL w.word ≠ caseFoldL tok) →
           ∃ w0 rest, ms = w0 :: rest ∧
             (⟨0, 4, 2, 0, 4, LinkStatus.suggested, some 1, none, none, none⟩ : TextWordLink).word_id
               = w0.id) ∧
        (∀ i (hi : i < ms.length), caseFoldL (ms.get ⟨i, hi⟩).word = caseFoldL tok →
           (∀ j (hj : j < ms.length), j < i → caseFoldL (ms.get ⟨j, hj⟩).word ≠ caseFoldL tok) →
           (⟨0, 4, 2, 0, 4, LinkStatus.suggested, some 1, none, none, none⟩ : TextWordLink).word_id
             = (ms.get ⟨i, hi⟩).id) :=
  C7_homograph_tiebreak ⟨[], [⟨1, 9, "Cafe".data⟩, ⟨2, 9, "café".data⟩], 0⟩
    ⟨4, some 9, "café".data⟩ none false
    ⟨0, 4, 2, 0, 4, LinkStatus.suggested, some 1, none, none, none⟩ (by decide)

/-- After a run with `replace_existing_suggestions = false`, running the token
loop again over a store extended by that run's created links produces
nothing: every span the first run claimed is now occupied. -/
theorem processTokens_second_run (db : DB) (t : Text) (cid : Option Nat) (n : Nat) :
    (suggestRun ⟨db.links ++ (suggestRun db t cid false).1, db.words, n⟩ t cid false).1
      = [] := by
  have hmem := processTokens_mem t.id cid
    (rejectedSpansOf (workingLinks db t.id false)) (languageWords db t)
    (iter_tokens t.content) ((workingLinks db t.id false).map spanOf) db.nextId
  have hfilter : (suggestRun db t cid false).1.filter (fun l => decide (l.text_id = t.id))
      = (suggestRun db t cid false).1 := by
    apply List.filter_eq_self.mpr
    intro l hl
    have htid := (hmem l hl).2.2.2.1
    simp [htid]
  have hW2 : workingLinks ⟨db.links ++ (suggestRun db t cid false).1, db.words, n⟩ t.id false
      = workingLinks db t.id false ++ (suggestRun db t cid false).1 := by
    show textLinks ⟨db.links ++ (suggestRun db t cid false).1, db.words, n⟩ t.id
      = textLinks db t.id ++ (suggestRun db t cid false).1
    unfold textLinks
    rw [show (⟨db.links ++ (suggestRun db t cid false).1, db.words, n⟩ : DB).links
        = db.links ++ (suggestRun db t cid false).1 from rfl]
    rw [List.filter_append, hfilter]
  have hrej : rejectedSpansOf
        (workingLinks db t.id false ++ (suggestRun db t cid false).1)
      = rejectedSpansOf (workingLinks db t.id false) := by
    unfold rejectedSpansOf
    rw [List.filter_append]
    have hnil : (suggestRun db t cid false).1.filter
        (fun l => decide (l.status = LinkStatus.rejected)) = [] := by
      apply List.filter_eq_nil_iff.mpr
      intro l hl
      have hst := (hmem l hl).1
      simp [hst]
    rw [hnil, List.append_nil]
  show (processTokens t.id cid
      (rejectedSpansOf (workingLinks ⟨db.links ++ (suggestRun db t cid false).1,
        db.words, n⟩ t.id false))
      (languageWords ⟨db.links ++ (suggestRun db t cid false).1, db.words, n⟩ t)
      (iter_tokens t.content)
      ((workingLinks ⟨db.links ++ (suggestRun db t cid false).1, db.words, n⟩ t.id
        false).map spanOf) n).1 = []
  rw [hW2, hrej]
  rw [show languageWords ⟨db.links ++ (suggestRun db t cid false).1, db.words, n⟩ t
      = languageWords db t from rfl]
  rw [List.map_append]
  exact processTokens_stable t.id cid
    (rejectedSpansOf (workingLinks db t.id false)) (languageWords db t)
    (iter_tokens t.content) ((workingLinks db t.id false).map spanOf) _ db.nextId n
    (fun sp hsp => List.mem_append_left _ hsp)
    (fun l hl => List.mem_append_right _ (List.mem_map_of_mem _ hl))

/-- **C1**.  Idempotence of suggestion generation: for every store and text,
after one call of `suggest_links_for_text` with
`replace_existing_suggestions = false` (whose created links enter the store),
an immediate second call on the unchanged text creates and returns zero new
links — every matched span is already occupied. -/
theorem C1_idempotent (db : DB) (t : Text) (cid : Option Nat) :
    (suggest_links_for_text (suggest_links_for_text db t cid false).1 t cid false).2
      = [] := by
  by_cases hpre : t.language_id = none ∨ t.content = []
  · simp only [suggest_links_for_text, if_pos hpre]
  · rw [suggest_eq db t cid false hpre]
    rw [suggest_eq _ t cid false hpre]
    exact processTokens_second_run db t cid _

/-- The uniqueness key of the schema constraint `uq_text_word_links_unique_span`
(text_word_link.py, lines 74–76): the triple `(text_id, start_char, end_char)`. -/
def spanKey (l : TextWordLink) : Nat × Nat × Nat := (l.text_id, l.start_char, l.end_char)

/-- No two stored links claim the same `(text_id, start_char, end_char)`
triple — equivalently, no two links of one text share the exact same span. -/
def uniqueSpans (ls : List TextWordLink) : Prop :=
  ls.Pairwise (fun a b => spanKey a ≠ spanKey b)

/-- **C8**.  Exact-span uniqueness: a call of `suggest_links_for_text` on a
store in which no two links of a text share a span leaves the store with the
same property, and the links created within the one invocation have pairwise
distinct spans (each created span is recorded as occupied immediately, so no
second link can be created at it in the same pass). -/
theorem C8_span_uniqueness (db : DB) (t : Text) (cid : Option Nat) (repl : Bool)
    (h : uniqueSpans db.links) :
    uniqueSpans (suggest_links_for_text db t cid repl).1.links ∧
    (suggest_links_for_text db t cid repl).2.Pairwise
      (fun a b => spanOf a ≠ spanOf b) := by
  by_cases hpre : t.language_id = none ∨ t.content = []
  · simp only [suggest_links_for_text, if_pos hpre]
    exact ⟨h, List.Pairwise.nil⟩
  · rw [suggest_eq db t cid repl hpre]
    have hfresh := processTokens_fresh t.id cid
      (rejectedSpansOf (workingLinks db t.id repl)) (languageWords db t)
      (iter_tokens t.content) ((workingLinks db t.id repl).map spanOf) db.nextId
    have hmem := processTokens_mem t.id cid
      (rejectedSpansOf (workingLinks db t.id repl)) (languageWords db t)
      (iter_tokens t.content) ((workingLinks db t.id repl).map spanOf) db.nextId
    refine ⟨?_, hfresh.2⟩
    show (keptLinks db t.id repl ++ (suggestRun db t cid repl).1).Pairwise
      (fun a b => spanKey a ≠ spanKey b)
    rw [List.pairwise_append]
    refine ⟨?_, ?_, ?_⟩
    · have hsub : (keptLinks db t.id repl).Sublist db.links := by
        unfold keptLinks purgeSuggested
        cases repl with
        | false => exact List.Sublist.refl _
        | true =>
          simp only [if_pos rfl]
          exact List.filter_sublist _
      exact List.Pairwise.sublist hsub h
    · apply List.Pairwise.imp_of_mem ?_ hfresh.2
      intro a b _ _ hne hkeyeq
      apply hne
      have h1 := congrArg (fun x => x.2.1) hkeyeq
      have h2 := congrArg (fun x => x.2.2) hkeyeq
      simp only [spanKey] at h1 h2
      simp only [spanOf]
      rw [h1, h2]
    · intro a ha b hb hkeyeq
      have hbtid : b.text_id = t.id := (hmem b hb).2.2.2.1
      have hab_tid := congrArg (fun x => x.1) hkeyeq
      simp only [spanKey] at hab_tid
      have hatid : a.text_id = t.id := by rw [hab_tid, hbtid]
      have hamem : a ∈ db.links := by
        unfold keptLinks purgeSuggested at ha
        cases repl with
        | false => exact ha
        | true =>
          simp only [if_pos rfl] at ha
          exact (List.mem_filter.mp ha).1
      have haW : a ∈ workingLinks db t.id repl := by
        cases repl with
        | false =>
          show a ∈ textLinks db t.id
          exact List.mem_filter.mpr ⟨hamem, by simpa using hatid⟩
        | true =>
          unfold keptLinks purgeSuggested at ha
          simp only [if_pos rfl] at ha
          have h2 := List.mem_filter.mp ha
          have hnots : a.status ≠ LinkStatus.suggested := by
            have h3 := h2.2
            simpa [hatid] using h3
          exact mem_workingLinks_of_not_suggested true h2.1 hatid hnots
      have hspaneq : spanOf a = spanOf b := by
        have h1 := congrArg (fun x => x.2.1) hkeyeq
        have h2 := congrArg (fun x => x.2.2) hkeyeq
        simp only [spanKey] at h1 h2
        simp only [spanOf]
        rw [h1, h2]
      apply hfresh.1 b hb
      rw [← hspaneq]
      exact List.mem_map_of_mem _ haW

/-- Witness for `C8_span_uniqueness`: a store holding one confirmed link for
the `"Hello world"` text keeps unique spans through a run, and the created
links have pairwise distinct spans. -/
theorem C8_span_uniqueness_witness :
    uniqueSpans (suggest_links_for_text
      ⟨[⟨8, 3, 1, 6, 11, LinkStatus.confirmed, none, none, none, none⟩],
       [⟨1, 9, "Hello".data⟩], 9⟩
      ⟨3, some 9, "Hello world".data⟩ none false).1.links ∧
    (suggest_links_for_text
      ⟨[⟨8, 3, 1, 6, 11, LinkStatus.confirmed, none, none, none, none⟩],
       [⟨1, 9, "Hello".data⟩], 9⟩
      ⟨3, some 9, "Hello world".data⟩ none false).2.Pairwise
        (fun a b => spanOf a ≠ spanOf b) :=
  C8_span_uniqueness _ _ none false (by simp [uniqueSpans])

end Nativo
